import Mathlib

/-!
Verification of `scripts/fix_doc_backticks.py`.

The script reads every Rust source file, and for each line that is a
documentation comment (its content after leading whitespace starts with
`///`) applies three sequential `re.sub` passes:

* pattern 1: `(\s)([a-zA-Z_][a-zA-Z0-9_]*\(\))(\s)`   -> `\1` ` `\2` ` `\3`
* pattern 2: `(\s)([a-z_][a-z0-9_]*_[a-z0-9_]+)(\s|[.,;)\]])` -> same shape
* pattern 3: `(\s)([A-Z][a-zA-Z0-9]*[A-Z][a-zA-Z0-9]*)(\s)`   -> same shape

A file is rewritten only when at least one of its lines changed, and the
per-file count of changed lines is reported.

The embedding works on `List Char`.  Each regex is embedded as a
position-anchored matcher (`p1MatchAt`, `p2MatchAt`, `p3MatchAt`): the
character classes of the patterns are disjoint from the characters that may
follow a captured group, so Python's backtracking engine matches at a given
position exactly when the maximal run of token characters starting there
satisfies the pattern, which is what the matchers compute with `takeWhile` /
`dropWhile`.  `re.sub`'s left-to-right, non-overlapping scan is embedded by
`scan`, which at each position either emits the replacement and resumes after
the match, or copies one character and moves on.  `scan` is driven by a fuel
argument (every step consumes at least one character, so `s.length` fuel is
always enough); this keeps every definition structurally recursive and hence
evaluable by `decide`.
-/

namespace FixDocBackticks

/-- The backtick character inserted by the replacement templates. -/
def backtick : Char := '\x60'

/-- Characters matched by the regex class `\s` for the ASCII fragment that the
script's doc comments use (space, tab, newline, carriage return, vertical tab,
form feed). -/
def isPySpace (c : Char) : Bool :=
  c = ' ' || c = '\t' || c = '\n' || c = '\r' || c = '\x0b' || c = '\x0c'

/-- Regex class `[a-z]`. -/
def lowerChar (c : Char) : Bool := 97 ≤ c.toNat && c.toNat ≤ 122

/-- Regex class `[A-Z]`. -/
def upperChar (c : Char) : Bool := 65 ≤ c.toNat && c.toNat ≤ 90

/-- Regex class `[0-9]`. -/
def digitChar (c : Char) : Bool := 48 ≤ c.toNat && c.toNat ≤ 57

/-- Regex class `[a-zA-Z_]`: first character of a pattern-1 identifier. -/
def identStart (c : Char) : Bool := lowerChar c || upperChar c || c = '_'

/-- Regex class `[a-zA-Z0-9_]`: later characters of a pattern-1 identifier. -/
def identChar (c : Char) : Bool := lowerChar c || upperChar c || digitChar c || c = '_'

/-- Regex class `[a-z_]`: first character of a pattern-2 token. -/
def snakeStart (c : Char) : Bool := lowerChar c || c = '_'

/-- Regex class `[a-z0-9_]`: characters of a pattern-2 token. -/
def snakeChar (c : Char) : Bool := lowerChar c || digitChar c || c = '_'

/-- Regex class `[a-zA-Z0-9]`: characters of a pattern-3 token. -/
def alnumChar (c : Char) : Bool := lowerChar c || upperChar c || digitChar c

/-- Punctuation alternatives `[.,;)\]]` of pattern 2's trailing group. -/
def isPunct2 (c : Char) : Bool := c = '.' || c = ',' || c = ';' || c = ')' || c = ']'

/-- Pattern 2's trailing group `(\s|[.,;)\]])`. -/
def isBoundary2 (c : Char) : Bool := isPySpace c || isPunct2 c

/-- Helper for `hasInternalUnderscore`: the list contains an underscore at a
position other than its last position. -/
def tailUnderscoreNotLast : List Char → Bool
  | [] => false
  | [_] => false
  | c :: rest => decide (c = '_') || tailUnderscoreNotLast rest

/-- A token decomposes as `[a-z_][a-z0-9_]*_[a-z0-9_]+` does after its first
character: it has an underscore at some index `i` with `1 ≤ i ≤ length - 2`. -/
def hasInternalUnderscore : List Char → Bool
  | [] => false
  | _ :: rest => tailUnderscoreNotLast rest

/-- Pattern 1 `(\s)([a-zA-Z_][a-zA-Z0-9_]*\(\))(\s)` anchored at the start of
`s`: a whitespace character, the maximal identifier run, a literal `()`, and a
trailing whitespace character.  Returns the three captured groups (the
identifier without its `()`) and the remaining input after the match. -/
def p1MatchAt : List Char → Option (Char × List Char × Char × List Char)
  | [] => none
  | w :: rest =>
    if isPySpace w then
      match rest with
      | [] => none
      | c :: _ =>
        if identStart c then
          match rest.dropWhile identChar with
          | '(' :: ')' :: b :: r =>
            if isPySpace b then some (w, rest.takeWhile identChar, b, r) else none
          | _ => none
        else none
    else none

/-- Pattern 2 `(\s)([a-z_][a-z0-9_]*_[a-z0-9_]+)(\s|[.,;)\]])` anchored at the
start of `s`. -/
def p2MatchAt : List Char → Option (Char × List Char × Char × List Char)
  | [] => none
  | w :: rest =>
    if isPySpace w then
      match rest with
      | [] => none
      | c :: _ =>
        if snakeStart c then
          if hasInternalUnderscore (rest.takeWhile snakeChar) then
            match rest.dropWhile snakeChar with
            | b :: r => if isBoundary2 b then some (w, rest.takeWhile snakeChar, b, r) else none
            | [] => none
          else none
        else none
    else none

/-- Pattern 3 `(\s)([A-Z][a-zA-Z0-9]*[A-Z][a-zA-Z0-9]*)(\s)` anchored at the
start of `s`. -/
def p3MatchAt : List Char → Option (Char × List Char × Char × List Char)
  | [] => none
  | w :: rest =>
    if isPySpace w then
      match rest with
      | [] => none
      | c :: _ =>
        if upperChar c then
          if ((rest.takeWhile alnumChar).drop 1).any upperChar then
            match rest.dropWhile alnumChar with
            | b :: r => if isPySpace b then some (w, rest.takeWhile alnumChar, b, r) else none
            | [] => none
          else none
        else none
    else none

/-- Pattern 1 match together with its replacement text `\1` ` `\2` ` `\3`
(the captured identifier keeps its `()` inside the backticks). -/
def m1 (s : List Char) : Option (List Char × List Char) :=
  match p1MatchAt s with
  | some (w, t, b, r) => some (w :: backtick :: (t ++ ['(', ')', backtick, b]), r)
  | none => none

/-- Pattern 2 match together with its replacement text `\1` ` `\2` ` `\3`. -/
def m2 (s : List Char) : Option (List Char × List Char) :=
  match p2MatchAt s with
  | some (w, t, b, r) => some (w :: backtick :: (t ++ [backtick, b]), r)
  | none => none

/-- Pattern 3 match together with its replacement text `\1` ` `\2` ` `\3`. -/
def m3 (s : List Char) : Option (List Char × List Char) :=
  match p3MatchAt s with
  | some (w, t, b, r) => some (w :: backtick :: (t ++ [backtick, b]), r)
  | none => none

/-- The scan of `re.sub`: at each position try the anchored matcher; on a
match emit the replacement and resume after the consumed text, otherwise copy
one character.  `fuel ≥ length of the input` makes the fuel irrelevant, since
each step consumes at least one character. -/
def scan (m : List Char → Option (List Char × List Char)) : Nat → List Char → List Char
  | _, [] => []
  | 0, c :: cs => c :: cs
  | fuel + 1, c :: cs =>
    match m (c :: cs) with
    | some (rep, r) => rep ++ scan m fuel r
    | none => c :: scan m fuel cs

/-- The pass `line = re.sub(pattern1, r'\1`\2`\3', line)`. -/
def sub1 (s : List Char) : List Char := scan m1 s.length s

/-- The pass `line = re.sub(pattern2, r'\1`\2`\3', line)`. -/
def sub2 (s : List Char) : List Char := scan m2 s.length s

/-- The pass `line = re.sub(pattern3, r'\1`\2`\3', line)`. -/
def sub3 (s : List Char) : List Char := scan m3 s.length s

/-- The guard `line.lstrip().startswith('///')`. -/
def isDocLine (s : List Char) : Bool :=
  match s.dropWhile isPySpace with
  | '/' :: '/' :: '/' :: _ => true
  | _ => false

/-- The function `fix_doc_line` on the characters of one line: non-doc lines
are returned unchanged, doc lines get the three substitution passes in
order. -/
def fixLine (s : List Char) : List Char :=
  if isDocLine s then sub3 (sub2 (sub1 s)) else s

/-- The function `fix_doc_line`, at `String` level. -/
def fix_doc_line (s : String) : String := String.mk (fixLine s.data)

/-- The per-file loop: `for line in lines: new_line = fix_doc_line(line); if
new_line != line: file_changes += 1; new_lines.append(new_line)`.  Returns
`new_lines` and `file_changes`. -/
def processLines : List (List Char) → List (List Char) × Nat
  | [] => ([], 0)
  | l :: ls =>
    ((fixLine l :: (processLines ls).1),
      (if fixLine l = l then 0 else 1) + (processLines ls).2)

/-- The conditional write `if file_changes > 0: open(file_path, 'w')` —
`some new_lines` when the file is overwritten, `none` when it is left
untouched. -/
def writeBack (lines : List (List Char)) : Option (List (List Char)) :=
  if 0 < (processLines lines).2 then some (processLines lines).1 else none

/-- Universal-newline translation performed by `open(file_path, 'r')` in text
mode with `newline=None` (the script's call): `\r\n` and bare `\r` are read as
`\n`. -/
def univNewlines : List Char → List Char
  | [] => []
  | [c] => if c = '\r' then ['\n'] else [c]
  | c :: d :: rest =>
    if c = '\r' then
      if d = '\n' then '\n' :: univNewlines rest
      else '\n' :: univNewlines (d :: rest)
    else c :: univNewlines (d :: rest)

/-- Helper for `splitLines`: `acc` holds the reversed characters of the line
being accumulated. -/
def splitLinesAux : List Char → List Char → List (List Char)
  | acc, [] => if acc.isEmpty then [] else [acc.reverse]
  | acc, c :: rest =>
    if c = '\n' then (acc.reverse ++ ['\n']) :: splitLinesAux [] rest
    else splitLinesAux (c :: acc) rest

/-- The split performed by `f.readlines()`: lines keep their trailing `\n`;
a final fragment without a terminator is kept as a last line. -/
def splitLines (s : List Char) : List (List Char) := splitLinesAux [] s

/-- One whole file pass: read in text mode (universal newlines), split into
lines, run the per-file loop, and overwrite the file content only when at
least one line changed.  `f.writelines` concatenates the new lines; writing in
text mode translates `\n` to `os.linesep`, which on the Linux host running
the script is `\n` itself, so the write is the plain concatenation. -/
def rewriteFile (content : List Char) : List Char :=
  match writeBack (splitLines (univNewlines content)) with
  | some nl => nl.flatten
  | none => content

/-- Decidable bundling of pattern 2's token-shape conditions, used to state
boundary-consumption hypotheses: nonempty, starts in `[a-z_]`, all characters
in `[a-z0-9_]`, and an internal underscore. -/
def isSnakeTok : List Char → Bool
  | [] => false
  | c :: rest =>
    snakeStart c && (c :: rest).all snakeChar && hasInternalUnderscore (c :: rest)

/-- Token shape of Rule 2 as the specification words it: the token begins
with a lowercase letter or underscore, consists of lowercase letters, digits
and underscores, and contains at least one internal underscore — an
underscore with at least one token character on each side, so that a single
leading or trailing underscore alone does not qualify. -/
def SpecSnakeToken (t : List Char) : Prop :=
  t ≠ [] ∧ snakeStart t.headI = true ∧ (∀ c ∈ t, snakeChar c = true) ∧
    ∃ l1 l2, t = l1 ++ '_' :: l2 ∧ l1 ≠ [] ∧ l2 ≠ []

/-- Token shape of Rule 3 as the specification words it: the token starts
with an uppercase letter, consists only of letters and digits, and contains
at least two uppercase letters. -/
def SpecPascalToken (t : List Char) : Prop :=
  t ≠ [] ∧ upperChar t.headI = true ∧ (∀ c ∈ t, alnumChar c = true) ∧
    2 ≤ (t.filter (fun c => upperChar c)).length

/-- Characters kept by the backtick-erasing filter. -/
def keepChar (c : Char) : Bool := if c = backtick then false else true

lemma keepChar_backtick : keepChar backtick = false := by simp [keepChar]

lemma keepChar_of_ne {c : Char} (h : c ≠ backtick) : keepChar c = true := by
  simp [keepChar, h]

lemma snakeChar_of_snakeStart {c : Char} (h : snakeStart c = true) :
    snakeChar c = true := by
  simp only [snakeStart, snakeChar, Bool.or_eq_true] at h ⊢
  tauto

lemma identChar_of_identStart {c : Char} (h : identStart c = true) :
    identChar c = true := by
  simp only [identStart, identChar, Bool.or_eq_true] at h ⊢
  tauto

lemma alnumChar_of_upperChar {c : Char} (h : upperChar c = true) :
    alnumChar c = true := by
  simp only [alnumChar, Bool.or_eq_true]
  tauto

lemma not_snakeChar_of_boundary2 {c : Char} (h : isBoundary2 c = true) :
    snakeChar c = false := by
  simp only [isBoundary2, isPySpace, isPunct2, Bool.or_eq_true, decide_eq_true_eq] at h
  rcases h with (((((h | h) | h) | h) | h) | h) | ((((h | h) | h) | h) | h) <;>
    subst h <;> decide

lemma not_alnumChar_of_pySpace {c : Char} (h : isPySpace c = true) :
    alnumChar c = false := by
  simp only [isPySpace, Bool.or_eq_true, decide_eq_true_eq] at h
  rcases h with ((((h | h) | h) | h) | h) | h <;> subst h <;> decide

lemma not_upperChar_of_snakeChar {c : Char} (h : snakeChar c = true) :
    upperChar c = false := by
  cases hu : upperChar c with
  | false => rfl
  | true =>
    exfalso
    simp only [upperChar, Bool.and_eq_true, decide_eq_true_eq] at hu
    simp only [snakeChar, lowerChar, digitChar, Bool.or_eq_true, Bool.and_eq_true,
      decide_eq_true_eq] at h
    rcases h with (h | h) | h
    · omega
    · omega
    · subst h
      revert hu
      decide

lemma not_pySpace_of_snakeChar {c : Char} (h : snakeChar c = true) :
    isPySpace c = false := by
  cases hs : isPySpace c with
  | false => rfl
  | true =>
    exfalso
    simp only [isPySpace, Bool.or_eq_true, decide_eq_true_eq] at hs
    rcases hs with ((((h' | h') | h') | h') | h') | h' <;> subst h' <;>
      simp [snakeChar, lowerChar, digitChar] at h

lemma takeWhile_append_cons {p : Char → Bool} {t : List Char} {b : Char}
    (r : List Char) (h1 : ∀ c ∈ t, p c = true) (h2 : p b = false) :
    (t ++ b :: r).takeWhile p = t := by
  induction t with
  | nil => simp [List.takeWhile_cons, h2]
  | cons c cs ih =>
    have hc : p c = true := h1 c (by simp)
    simp only [List.cons_append, List.takeWhile_cons, hc, if_true]
    rw [ih (fun x hx => h1 x (by simp [hx]))]

lemma dropWhile_append_cons {p : Char → Bool} {t : List Char} {b : Char}
    (r : List Char) (h1 : ∀ c ∈ t, p c = true) (h2 : p b = false) :
    (t ++ b :: r).dropWhile p = b :: r := by
  induction t with
  | nil => simp [List.dropWhile_cons, h2]
  | cons c cs ih =>
    have hc : p c = true := h1 c (by simp)
    simp only [List.cons_append, List.dropWhile_cons, hc, if_true]
    exact ih (fun x hx => h1 x (by simp [hx]))

lemma tailUnderscoreNotLast_iff (l : List Char) :
    tailUnderscoreNotLast l = true ↔ ∃ s t, l = s ++ '_' :: t ∧ t ≠ [] := by
  induction l with
  | nil =>
    simp only [tailUnderscoreNotLast, Bool.false_eq_true, false_iff]
    rintro ⟨s, t, h, -⟩
    simp at h
  | cons c l ih =>
    cases l with
    | nil =>
      simp only [tailUnderscoreNotLast, Bool.false_eq_true, false_iff]
      rintro ⟨s, t, h, ht⟩
      rcases s with - | ⟨a, s⟩
      · rw [List.nil_append] at h
        injection h with h1 h2
        exact ht h2.symm
      · rw [List.cons_append] at h
        injection h with h1 h2
        simp at h2
    | cons d rest =>
      simp only [tailUnderscoreNotLast, Bool.or_eq_true, decide_eq_true_eq]
      constructor
      · intro h
        rcases h with h | h
        · exact ⟨[], d :: rest, by simp [h], by simp⟩
        · rcases ih.mp h with ⟨s, t, heq, ht⟩
          exact ⟨c :: s, t, by simp [heq], ht⟩
      · rintro ⟨s, t, heq, ht⟩
        rcases s with - | ⟨a, s⟩
        · simp only [List.nil_append, List.cons.injEq] at heq
          exact Or.inl heq.1
        · simp only [List.cons_append, List.cons.injEq] at heq
          exact Or.inr (ih.mpr ⟨s, t, heq.2, ht⟩)

lemma hasInternalUnderscore_iff (t : List Char) :
    hasInternalUnderscore t = true ↔
      ∃ l1 l2, t = l1 ++ '_' :: l2 ∧ l1 ≠ [] ∧ l2 ≠ [] := by
  cases t with
  | nil =>
    simp only [hasInternalUnderscore, Bool.false_eq_true, false_iff]
    rintro ⟨l1, l2, h, -, -⟩
    simp at h
  | cons c rest =>
    simp only [hasInternalUnderscore]
    rw [tailUnderscoreNotLast_iff]
    constructor
    · rintro ⟨s, t', heq, ht⟩
      exact ⟨c :: s, t', by simp [heq], by simp, ht⟩
    · rintro ⟨l1, l2, heq, h1, h2⟩
      rcases l1 with - | ⟨a, l1⟩
      · exact absurd rfl h1
      · simp only [List.cons_append, List.cons.injEq] at heq
        exact ⟨l1, l2, heq.2, h2⟩

/-- Inversion of a successful pattern-1 match: the input decomposes as the
consumed text followed by the rest. -/
lemma p1MatchAt_some_eq {s : List Char} {w b : Char} {t r : List Char}
    (h : p1MatchAt s = some (w, t, b, r)) :
    s = w :: (t ++ '(' :: ')' :: b :: r) ∧ isPySpace w = true ∧ isPySpace b = true := by
  cases s with
  | nil => simp [p1MatchAt] at h
  | cons w' rest =>
    cases rest with
    | nil => simp [p1MatchAt] at h
    | cons c cs =>
      simp only [p1MatchAt] at h
      split at h
      case isTrue hw =>
        split at h
        case isTrue hc =>
          split at h
          case h_1 b' r' heq =>
            split at h
            case isTrue hb =>
              simp only [Option.some.injEq, Prod.mk.injEq] at h
              obtain ⟨rfl, rfl, rfl, rfl⟩ := h
              refine ⟨?_, hw, hb⟩
              have hsplit := List.takeWhile_append_dropWhile identChar (c :: cs)
              rw [heq] at hsplit
              exact congrArg (w' :: ·) hsplit.symm
            case isFalse => exact absurd h (by simp)
          case h_2 => exact absurd h (by simp)
        case isFalse => exact absurd h (by simp)
      case isFalse => exact absurd h (by simp)

/-- A pattern-2 match at a position succeeds with captures `(w, t, b, r)`
exactly when the input decomposes as a whitespace character, a token of the
snake_case shape the specification describes, and a trailing whitespace or
punctuation boundary. -/
lemma p2MatchAt_some_iff {s : List Char} {w b : Char} {t r : List Char} :
    p2MatchAt s = some (w, t, b, r) ↔
      (s = w :: (t ++ b :: r) ∧ isPySpace w = true ∧ SpecSnakeToken t ∧
        isBoundary2 b = true) := by
  constructor
  · intro h
    cases s with
    | nil => simp [p2MatchAt] at h
    | cons w' rest =>
      cases rest with
      | nil => simp [p2MatchAt] at h
      | cons c cs =>
        simp only [p2MatchAt] at h
        split at h
        case isTrue hw =>
          split at h
          case isTrue hc =>
            split at h
            case isTrue hint =>
              split at h
              case h_1 b' r' heq =>
                split at h
                case isTrue hb =>
                  simp only [Option.some.injEq, Prod.mk.injEq] at h
                  obtain ⟨rfl, rfl, rfl, rfl⟩ := h
                  have hsplit := List.takeWhile_append_dropWhile snakeChar (c :: cs)
                  rw [heq] at hsplit
                  have hcc : snakeChar c = true := snakeChar_of_snakeStart hc
                  have htk : List.takeWhile snakeChar (c :: cs) =
                      c :: List.takeWhile snakeChar cs := by
                    simp [List.takeWhile_cons, hcc]
                  refine ⟨congrArg (w' :: ·) hsplit.symm, hw, ?_, hb⟩
                  refine ⟨by simp [htk], by simp [htk, List.headI, hc], ?_, ?_⟩
                  · exact fun x hx => List.mem_takeWhile_imp hx
                  · exact (hasInternalUnderscore_iff _).mp hint
                case isFalse => exact absurd h (by simp)
              case h_2 => exact absurd h (by simp)
            case isFalse => exact absurd h (by simp)
          case isFalse => exact absurd h (by simp)
        case isFalse => exact absurd h (by simp)
  · rintro ⟨heq, hw, ⟨hne, hhead, hmem, hu⟩, hb⟩
    subst heq
    rcases t with - | ⟨c, t'⟩
    · exact absurd rfl hne
    · simp only [List.headI] at hhead
      have hbns : snakeChar b = false := not_snakeChar_of_boundary2 hb
      have htake : List.takeWhile snakeChar ((c :: t') ++ b :: r) = c :: t' :=
        takeWhile_append_cons r hmem hbns
      have hdrop : List.dropWhile snakeChar ((c :: t') ++ b :: r) = b :: r :=
        dropWhile_append_cons r hmem hbns
      have hint : hasInternalUnderscore (c :: t') = true :=
        (hasInternalUnderscore_iff _).mpr hu
      simp only [List.cons_append] at htake hdrop
      simp only [p2MatchAt, List.cons_append, htake, hdrop, hint, hhead, hw, hb,
        if_true, if_pos]

/-- A pattern-3 match at a position succeeds with captures `(w, t, b, r)`
exactly when the input decomposes as a whitespace character, a token of the
PascalCase shape the specification describes, and a trailing whitespace
character. -/
lemma p3MatchAt_some_iff {s : List Char} {w b : Char} {t r : List Char} :
    p3MatchAt s = some (w, t, b, r) ↔
      (s = w :: (t ++ b :: r) ∧ isPySpace w = true ∧ SpecPascalToken t ∧
        isPySpace b = true) := by
  constructor
  · intro h
    cases s with
    | nil => simp [p3MatchAt] at h
    | cons w' rest =>
      cases rest with
      | nil => simp [p3MatchAt] at h
      | cons c cs =>
        simp only [p3MatchAt] at h
        split at h
        case isTrue hw =>
          split at h
          case isTrue hc =>
            split at h
            case isTrue hany =>
              split at h
              case h_1 b' r' heq =>
                split at h
                case isTrue hb =>
                  simp only [Option.some.injEq, Prod.mk.injEq] at h
                  obtain ⟨rfl, rfl, rfl, rfl⟩ := h
                  have hsplit := List.takeWhile_append_dropWhile alnumChar (c :: cs)
                  rw [heq] at hsplit
                  have hcc : alnumChar c = true := alnumChar_of_upperChar hc
                  have htk : List.takeWhile alnumChar (c :: cs) =
                      c :: List.takeWhile alnumChar cs := by
                    simp [List.takeWhile_cons, hcc]
                  refine ⟨congrArg (w' :: ·) hsplit.symm, hw, ?_, hb⟩
                  refine ⟨by simp [htk], by simp [htk, List.headI, hc], ?_, ?_⟩
                  · exact fun x hx => List.mem_takeWhile_imp hx
                  · rw [htk] at hany ⊢
                    simp only [List.drop_one, List.tail_cons] at hany
                    rcases List.any_eq_true.mp hany with ⟨x, hx, hup⟩
                    have hxf : x ∈ (List.takeWhile alnumChar cs).filter
                        (fun c => upperChar c) := List.mem_filter.mpr ⟨hx, hup⟩
                    have h1 : 0 < ((List.takeWhile alnumChar cs).filter
                        (fun c => upperChar c)).length :=
                      List.length_pos.mpr (List.ne_nil_of_mem hxf)
                    simp only [List.filter_cons, hc, if_true, List.length_cons]
                    omega
                case isFalse => exact absurd h (by simp)
              case h_2 => exact absurd h (by simp)
            case isFalse => exact absurd h (by simp)
          case isFalse => exact absurd h (by simp)
        case isFalse => exact absurd h (by simp)
  · rintro ⟨heq, hw, ⟨hne, hhead, hmem, hcount⟩, hb⟩
    subst heq
    rcases t with - | ⟨c, t'⟩
    · exact absurd rfl hne
    · simp only [List.headI] at hhead
      have hbna : alnumChar b = false := not_alnumChar_of_pySpace hb
      have htake : List.takeWhile alnumChar ((c :: t') ++ b :: r) = c :: t' :=
        takeWhile_append_cons r hmem hbna
      have hdrop : List.dropWhile alnumChar ((c :: t') ++ b :: r) = b :: r :=
        dropWhile_append_cons r hmem hbna
      have hany : t'.any upperChar = true := by
        simp only [List.filter_cons, hhead, if_true, List.length_cons] at hcount
        have h1 : 0 < (t'.filter (fun c => upperChar c)).length := by omega
        rcases List.exists_mem_of_length_pos h1 with ⟨x, hx⟩
        rcases List.mem_filter.mp hx with ⟨hx1, hx2⟩
        exact List.any_eq_true.mpr ⟨x, hx1, hx2⟩
      simp only [List.cons_append] at htake hdrop
      simp only [p3MatchAt, List.cons_append, htake, hdrop, hhead, hw, hb,
        List.drop_one, List.tail_cons, hany, if_true, if_pos]

lemma m1_length : ∀ (s : List Char) (p : List Char × List Char),
    m1 s = some p → p.2.length < s.length := by
  intro s p h
  unfold m1 at h
  rcases hp : p1MatchAt s with - | ⟨w, t, b, r'⟩ <;> rw [hp] at h
  · simp at h
  · simp only [Option.some.injEq] at h
    obtain ⟨hs, -, -⟩ := p1MatchAt_some_eq hp
    subst hs
    rw [← h]
    simp
    omega

lemma m2_length : ∀ (s : List Char) (p : List Char × List Char),
    m2 s = some p → p.2.length < s.length := by
  intro s p h
  unfold m2 at h
  rcases hp : p2MatchAt s with - | ⟨w, t, b, r'⟩ <;> rw [hp] at h
  · simp at h
  · simp only [Option.some.injEq] at h
    obtain ⟨hs, -, -, -⟩ := p2MatchAt_some_iff.mp hp
    subst hs
    rw [← h]
    simp
    omega

lemma m3_length : ∀ (s : List Char) (p : List Char × List Char),
    m3 s = some p → p.2.length < s.length := by
  intro s p h
  unfold m3 at h
  rcases hp : p3MatchAt s with - | ⟨w, t, b, r'⟩ <;> rw [hp] at h
  · simp at h
  · simp only [Option.some.injEq] at h
    obtain ⟨hs, -, -, -⟩ := p3MatchAt_some_iff.mp hp
    subst hs
    rw [← h]
    simp
    omega

lemma scan_fuel_irrel {m : List Char → Option (List Char × List Char)}
    (hm : ∀ s p, m s = some p → p.2.length < s.length) :
    ∀ f1 f2 s, s.length ≤ f1 → s.length ≤ f2 → scan m f1 s = scan m f2 s := by
  intro f1
  induction f1 with
  | zero =>
    intro f2 s h1 h2
    have hnil : s = [] := List.eq_nil_of_length_eq_zero (Nat.le_zero.mp h1)
    subst hnil
    cases f2 <;> simp [scan]
  | succ f ih =>
    intro f2 s h1 h2
    cases s with
    | nil => cases f2 <;> simp [scan]
    | cons c cs =>
      cases f2 with
      | zero => simp at h2
      | succ f2' =>
        cases hmc : m (c :: cs) with
        | some p =>
          rcases p with ⟨rep, r⟩
          have hr := hm _ _ hmc
          simp only [List.length_cons] at hr h1 h2
          simp only [scan, hmc]
          rw [ih f2' r (by omega) (by omega)]
        | none =>
          simp only [List.length_cons] at h1 h2
          simp only [scan, hmc]
          rw [ih f2' cs (by omega) (by omega)]

lemma scan_cons_some {m : List Char → Option (List Char × List Char)}
    (hm : ∀ s p, m s = some p → p.2.length < s.length)
    {c : Char} {cs rep r : List Char} (h : m (c :: cs) = some (rep, r)) :
    scan m (c :: cs).length (c :: cs) = rep ++ scan m r.length r := by
  have hr := hm _ _ h
  simp only [List.length_cons] at hr ⊢
  simp only [scan, h]
  rw [scan_fuel_irrel hm cs.length r.length r (by omega) le_rfl]

lemma scan_cons_none {m : List Char → Option (List Char × List Char)}
    {c : Char} {cs : List Char} (h : m (c :: cs) = none) :
    scan m (c :: cs).length (c :: cs) = c :: scan m cs.length cs := by
  simp only [List.length_cons, scan, h]

lemma m1_rep : ∀ (s rep r : List Char), m1 s = some (rep, r) →
    ∃ pre, s = pre ++ r ∧ List.Sublist pre rep ∧
      rep.filter keepChar = pre.filter keepChar := by
  intro s rep r h
  unfold m1 at h
  rcases hp : p1MatchAt s with - | ⟨w, t, b, r'⟩ <;> rw [hp] at h
  · simp at h
  · simp only [Option.some.injEq, Prod.mk.injEq] at h
    obtain ⟨hrep, hr⟩ := h
    subst hrep
    subst hr
    obtain ⟨hs, -, -⟩ := p1MatchAt_some_eq hp
    subst hs
    refine ⟨w :: (t ++ ['(', ')', b]), by simp, ?_, ?_⟩
    · refine List.Sublist.cons₂ w (List.Sublist.cons backtick ?_)
      refine List.Sublist.append_left ?_ t
      exact List.Sublist.cons₂ '(' (List.Sublist.cons₂ ')'
        (List.Sublist.cons backtick (List.Sublist.refl [b])))
    · simp [List.filter_cons, List.filter_append, keepChar_backtick]

lemma m2_rep : ∀ (s rep r : List Char), m2 s = some (rep, r) →
    ∃ pre, s = pre ++ r ∧ List.Sublist pre rep ∧
      rep.filter keepChar = pre.filter keepChar := by
  intro s rep r h
  unfold m2 at h
  rcases hp : p2MatchAt s with - | ⟨w, t, b, r'⟩ <;> rw [hp] at h
  · simp at h
  · simp only [Option.some.injEq, Prod.mk.injEq] at h
    obtain ⟨hrep, hr⟩ := h
    subst hrep
    subst hr
    obtain ⟨hs, -, -, -⟩ := p2MatchAt_some_iff.mp hp
    subst hs
    refine ⟨w :: (t ++ [b]), by simp, ?_, ?_⟩
    · refine List.Sublist.cons₂ w (List.Sublist.cons backtick ?_)
      refine List.Sublist.append_left ?_ t
      exact List.Sublist.cons backtick (List.Sublist.refl [b])
    · simp [List.filter_cons, List.filter_append, keepChar_backtick]

lemma m3_rep : ∀ (s rep r : List Char), m3 s = some (rep, r) →
    ∃ pre, s = pre ++ r ∧ List.Sublist pre rep ∧
      rep.filter keepChar = pre.filter keepChar := by
  intro s rep r h
  unfold m3 at h
  rcases hp : p3MatchAt s with - | ⟨w, t, b, r'⟩ <;> rw [hp] at h
  · simp at h
  · simp only [Option.some.injEq, Prod.mk.injEq] at h
    obtain ⟨hrep, hr⟩ := h
    subst hrep
    subst hr
    obtain ⟨hs, -, -, -⟩ := p3MatchAt_some_iff.mp hp
    subst hs
    refine ⟨w :: (t ++ [b]), by simp, ?_, ?_⟩
    · refine List.Sublist.cons₂ w (List.Sublist.cons backtick ?_)
      refine List.Sublist.append_left ?_ t
      exact List.Sublist.cons backtick (List.Sublist.refl [b])
    · simp [List.filter_cons, List.filter_append, keepChar_backtick]

lemma scan_insert {m : List Char → Option (List Char × List Char)}
    (hm : ∀ s p, m s = some p → p.2.length < s.length)
    (hrep : ∀ s rep r, m s = some (rep, r) →
      ∃ pre, s = pre ++ r ∧ List.Sublist pre rep ∧
        rep.filter keepChar = pre.filter keepChar) :
    ∀ n s, s.length ≤ n →
      List.Sublist s (scan m s.length s) ∧
        (scan m s.length s).filter keepChar = s.filter keepChar := by
  intro n
  induction n with
  | zero =>
    intro s h
    have hnil : s = [] := List.eq_nil_of_length_eq_zero (Nat.le_zero.mp h)
    subst hnil
    simp [scan]
  | succ n ih =>
    intro s hs
    cases s with
    | nil => simp [scan]
    | cons c cs =>
      simp only [List.length_cons] at hs
      cases hmc : m (c :: cs) with
      | none =>
        rw [scan_cons_none hmc]
        have hcs := ih cs (by omega)
        refine ⟨List.Sublist.cons₂ c hcs.1, ?_⟩
        simp only [List.filter_cons, hcs.2]
      | some p =>
        rcases p with ⟨rep, r⟩
        rw [scan_cons_some hm hmc]
        obtain ⟨pre, hpre, hsub, hfil⟩ := hrep _ _ _ hmc
        have hr := hm _ _ hmc
        simp only [List.length_cons] at hr
        have ihr := ih r (by omega)
        constructor
        · rw [hpre]
          exact List.Sublist.append hsub ihr.1
        · rw [List.filter_append, hfil, ihr.2, hpre, List.filter_append]

lemma sub1_insert (s : List Char) :
    List.Sublist s (sub1 s) ∧ (sub1 s).filter keepChar = s.filter keepChar :=
  scan_insert m1_length m1_rep s.length s le_rfl

lemma sub2_insert (s : List Char) :
    List.Sublist s (sub2 s) ∧ (sub2 s).filter keepChar = s.filter keepChar :=
  scan_insert m2_length m2_rep s.length s le_rfl

lemma sub3_insert (s : List Char) :
    List.Sublist s (sub3 s) ∧ (sub3 s).filter keepChar = s.filter keepChar :=
  scan_insert m3_length m3_rep s.length s le_rfl

lemma fixLine_insert (s : List Char) :
    List.Sublist s (fixLine s) ∧ (fixLine s).filter keepChar = s.filter keepChar := by
  unfold fixLine
  split
  · refine ⟨List.Sublist.trans (List.Sublist.trans (sub1_insert s).1
      (sub2_insert (sub1 s)).1) (sub3_insert (sub2 (sub1 s))).1, ?_⟩
    rw [(sub3_insert (sub2 (sub1 s))).2, (sub2_insert (sub1 s)).2, (sub1_insert s).2]
  · exact ⟨List.Sublist.refl s, rfl⟩

lemma fixLine_count_keep {c : Char} (hc : keepChar c = true) (s : List Char) :
    (fixLine s).count c = s.count c := by
  have h1 := List.count_filter (l := fixLine s) hc
  have h2 := List.count_filter (l := s) hc
  rw [← h1, (fixLine_insert s).2, h2]

lemma fixLine_count_nl (s : List Char) : (fixLine s).count '\n' = s.count '\n' :=
  fixLine_count_keep (by decide) s

lemma mem_of_mem_fixLine {c : Char} {s : List Char} (h : c ∈ fixLine s)
    (hc : keepChar c = true) : c ∈ s := by
  have hmem : c ∈ (fixLine s).filter keepChar := List.mem_filter.mpr ⟨h, hc⟩
  rw [(fixLine_insert s).2] at hmem
  exact (List.mem_filter.mp hmem).1

lemma processLines_fst (ls : List (List Char)) : (processLines ls).1 = ls.map fixLine := by
  induction ls with
  | nil => rfl
  | cons l ls ih => simp [processLines, ih]

lemma processLines_snd (ls : List (List Char)) :
    (processLines ls).2 = ls.countP (fun l => decide (fixLine l ≠ l)) := by
  induction ls with
  | nil => rfl
  | cons l ls ih =>
    simp only [processLines, List.countP_cons, ih]
    by_cases h : fixLine l = l
    · simp [h]
    · simp [h]
      omega

lemma writeBack_isSome (ls : List (List Char)) :
    (writeBack ls).isSome = ls.any (fun l => decide (fixLine l ≠ l)) := by
  unfold writeBack
  by_cases h : 0 < (processLines ls).2
  · rw [if_pos h]
    have hex : ∃ a ∈ ls, decide (fixLine a ≠ a) = true := by
      rw [← List.countP_pos_iff, ← processLines_snd]
      exact h
    symm
    simpa [List.any_eq_true] using hex
  · rw [if_neg h]
    have h0 : (processLines ls).2 = 0 := Nat.eq_zero_of_not_pos h
    rw [processLines_snd] at h0
    have hall := List.countP_eq_zero.mp h0
    simp only [Option.isSome_none]
    symm
    rw [List.any_eq_false]
    intro x hx
    simp only [decide_eq_true_eq]
    have := hall x hx
    simpa using this

lemma p2MatchAt_head_none {c : Char} {cs : List Char} (h : isPySpace c = false) :
    p2MatchAt (c :: cs) = none := by
  simp [p2MatchAt, h]

lemma m2_head_none {c : Char} {cs : List Char} (h : isPySpace c = false) :
    m2 (c :: cs) = none := by
  simp [m2, p2MatchAt_head_none h]

lemma sub2_eq_self_of_no_space : ∀ (n : Nat) (s : List Char), s.length ≤ n →
    (∀ c ∈ s, isPySpace c = false) → sub2 s = s := by
  intro n
  induction n with
  | zero =>
    intro s h1 h2
    have : s = [] := List.eq_nil_of_length_eq_zero (Nat.le_zero.mp h1)
    subst this
    rfl
  | succ n ih =>
    intro s h1 h2
    cases s with
    | nil => rfl
    | cons c cs =>
      simp only [List.length_cons] at h1
      have hm : m2 (c :: cs) = none := m2_head_none (h2 c (by simp))
      have : sub2 (c :: cs) = c :: scan m2 cs.length cs := scan_cons_none hm
      rw [this]
      exact congrArg (c :: ·) (ih cs (by omega) (fun x hx => h2 x (by simp [hx])))

lemma m1_none_of_no_paren {c : Char} {cs : List Char} (h : '(' ∉ c :: cs) :
    m1 (c :: cs) = none := by
  cases hm : m1 (c :: cs) with
  | none => rfl
  | some p =>
    exfalso
    rcases p with ⟨rep, r⟩
    unfold m1 at hm
    rcases hp : p1MatchAt (c :: cs) with - | ⟨w, t, b, r'⟩ <;> rw [hp] at hm
    · simp at hm
    · obtain ⟨hs, -, -⟩ := p1MatchAt_some_eq hp
      exact h (by rw [hs]; simp)

lemma sub1_eq_self_of_no_paren : ∀ (n : Nat) (s : List Char), s.length ≤ n →
    '(' ∉ s → sub1 s = s := by
  intro n
  induction n with
  | zero =>
    intro s h1 h2
    have : s = [] := List.eq_nil_of_length_eq_zero (Nat.le_zero.mp h1)
    subst this
    rfl
  | succ n ih =>
    intro s h1 h2
    cases s with
    | nil => rfl
    | cons c cs =>
      simp only [List.length_cons] at h1
      have hm : m1 (c :: cs) = none := m1_none_of_no_paren h2
      have : sub1 (c :: cs) = c :: scan m1 cs.length cs := scan_cons_none hm
      rw [this]
      exact congrArg (c :: ·) (ih cs (by omega) (fun hx => h2 (by simp [hx])))

lemma m3_none_of_no_upper {c : Char} {cs : List Char}
    (h : ∀ x ∈ c :: cs, upperChar x = false) : m3 (c :: cs) = none := by
  cases hm : m3 (c :: cs) with
  | none => rfl
  | some p =>
    exfalso
    rcases p with ⟨rep, r⟩
    unfold m3 at hm
    rcases hp : p3MatchAt (c :: cs) with - | ⟨w, t, b, r'⟩ <;> rw [hp] at hm
    · simp at hm
    · obtain ⟨hs, -, hpas, -⟩ := p3MatchAt_some_iff.mp hp
      obtain ⟨hne, hhead, -, -⟩ := hpas
      rcases t with - | ⟨c', t'⟩
      · exact hne rfl
      · simp only [List.headI] at hhead
        have hc' : c' ∈ c :: cs := by rw [hs]; simp
        rw [h c' hc'] at hhead
        exact Bool.false_ne_true hhead

lemma sub3_eq_self_of_no_upper : ∀ (n : Nat) (s : List Char), s.length ≤ n →
    (∀ x ∈ s, upperChar x = false) → sub3 s = s := by
  intro n
  induction n with
  | zero =>
    intro s h1 h2
    have : s = [] := List.eq_nil_of_length_eq_zero (Nat.le_zero.mp h1)
    subst this
    rfl
  | succ n ih =>
    intro s h1 h2
    cases s with
    | nil => rfl
    | cons c cs =>
      simp only [List.length_cons] at h1
      have hm : m3 (c :: cs) = none := m3_none_of_no_upper h2
      have : sub3 (c :: cs) = c :: scan m3 cs.length cs := scan_cons_none hm
      rw [this]
      exact congrArg (c :: ·) (ih cs (by omega) (fun x hx => h2 x (by simp [hx])))

lemma univNewlines_eq_self : ∀ s : List Char, '\r' ∉ s → univNewlines s = s := by
  intro s
  induction s with
  | nil => intro h; rfl
  | cons c s ih =>
    intro h
    have hc : c ≠ '\r' := fun e => h (by simp [e])
    cases s with
    | nil => simp [univNewlines, hc]
    | cons d rest =>
      simp only [univNewlines]
      rw [if_neg hc]
      exact congrArg (c :: ·) (ih (fun hx => h (List.mem_cons_of_mem c hx)))

lemma flatten_splitLinesAux : ∀ (s acc : List Char),
    (splitLinesAux acc s).flatten = acc.reverse ++ s := by
  intro s
  induction s with
  | nil =>
    intro acc
    simp only [splitLinesAux]
    by_cases h : acc.isEmpty
    · rw [if_pos h]
      simp [List.isEmpty_iff.mp h]
    · rw [if_neg h]
      simp
  | cons c rest ih =>
    intro acc
    simp only [splitLinesAux]
    by_cases hc : c = '\n'
    · rw [if_pos hc]
      subst hc
      simp [List.flatten_cons, ih []]
    · rw [if_neg hc]
      rw [ih (c :: acc)]
      simp

lemma flatten_splitLines (s : List Char) : (splitLines s).flatten = s := by
  simpa using flatten_splitLinesAux s []

lemma count_flatten_map_fixLine (ls : List (List Char)) :
    ((ls.map fixLine).flatten).count '\n' = (ls.flatten).count '\n' := by
  induction ls with
  | nil => rfl
  | cons l ls ih => simp [List.flatten_cons, List.count_append, ih, fixLine_count_nl]

lemma mem_flatten_map_fixLine {c : Char} {ls : List (List Char)}
    (h : c ∈ (ls.map fixLine).flatten) (hc : keepChar c = true) : c ∈ ls.flatten := by
  rcases List.mem_flatten.mp h with ⟨l, hl, hcl⟩
  rcases List.mem_map.mp hl with ⟨l0, hl0, rfl⟩
  exact List.mem_flatten.mpr ⟨l0, hl0, mem_of_mem_fixLine hcl hc⟩

lemma writeBack_eq_some {ls nl : List (List Char)} (h : writeBack ls = some nl) :
    nl = ls.map fixLine := by
  unfold writeBack at h
  split at h
  · simp only [Option.some.injEq] at h
    rw [← h, processLines_fst]
  · exact absurd h (by simp)

lemma rewriteFile_no_cr (content : List Char) (h : '\r' ∉ content) :
    '\r' ∉ rewriteFile content ∧
      (rewriteFile content).count '\n' = content.count '\n' := by
  unfold rewriteFile
  rw [univNewlines_eq_self content h]
  cases hw : writeBack (splitLines content) with
  | none => exact ⟨h, rfl⟩
  | some nl =>
    rw [writeBack_eq_some hw]
    constructor
    · intro hmem
      have := mem_flatten_map_fixLine hmem (by decide)
      rw [flatten_splitLines] at this
      exact h this
    · rw [count_flatten_map_fixLine, flatten_splitLines]

lemma specSnakeToken_of_isSnakeTok {t : List Char} (h : isSnakeTok t = true) :
    SpecSnakeToken t := by
  cases t with
  | nil => simp [isSnakeTok] at h
  | cons c rest =>
    simp only [isSnakeTok, Bool.and_eq_true] at h
    obtain ⟨⟨h1, h2⟩, h3⟩ := h
    exact ⟨by simp, by simpa [List.headI] using h1,
      List.all_eq_true.mp h2, (hasInternalUnderscore_iff _).mp h3⟩

lemma m2_space_a_none (y : List Char) : m2 (' ' :: 'a' :: ' ' :: y) = none := by
  have h1 : isPySpace ' ' = true := by decide
  have h2 : snakeStart 'a' = true := by decide
  have h3 : snakeChar 'a' = true := by decide
  have h4 : snakeChar ' ' = false := by decide
  simp [m2, p2MatchAt, h1, h2, h3, h4, List.takeWhile_cons, hasInternalUnderscore,
    tailUnderscoreNotLast]

lemma c10_sub2 {t1 t2 : List Char} (h1 : SpecSnakeToken t1)
    (h2 : ∀ c ∈ t2, snakeChar c = true) :
    sub2 ('/' :: '/' :: '/' :: ' ' :: 'a' :: ' ' :: (t1 ++ ' ' :: (t2 ++ ['.']))) =
      '/' :: '/' :: '/' :: ' ' :: 'a' :: ' ' :: backtick ::
        (t1 ++ backtick :: ' ' :: (t2 ++ ['.'])) := by
  have e1 : sub2 ('/' :: '/' :: '/' :: ' ' :: 'a' :: ' ' :: (t1 ++ ' ' :: (t2 ++ ['.']))) =
      '/' :: sub2 ('/' :: '/' :: ' ' :: 'a' :: ' ' :: (t1 ++ ' ' :: (t2 ++ ['.']))) :=
    scan_cons_none (m2_head_none (by decide))
  have e2 : sub2 ('/' :: '/' :: ' ' :: 'a' :: ' ' :: (t1 ++ ' ' :: (t2 ++ ['.']))) =
      '/' :: sub2 ('/' :: ' ' :: 'a' :: ' ' :: (t1 ++ ' ' :: (t2 ++ ['.']))) :=
    scan_cons_none (m2_head_none (by decide))
  have e3 : sub2 ('/' :: ' ' :: 'a' :: ' ' :: (t1 ++ ' ' :: (t2 ++ ['.']))) =
      '/' :: sub2 (' ' :: 'a' :: ' ' :: (t1 ++ ' ' :: (t2 ++ ['.']))) :=
    scan_cons_none (m2_head_none (by decide))
  have e4 : sub2 (' ' :: 'a' :: ' ' :: (t1 ++ ' ' :: (t2 ++ ['.']))) =
      ' ' :: sub2 ('a' :: ' ' :: (t1 ++ ' ' :: (t2 ++ ['.']))) :=
    scan_cons_none (m2_space_a_none _)
  have e5 : sub2 ('a' :: ' ' :: (t1 ++ ' ' :: (t2 ++ ['.']))) =
      'a' :: sub2 (' ' :: (t1 ++ ' ' :: (t2 ++ ['.']))) :=
    scan_cons_none (m2_head_none (by decide))
  have hp : p2MatchAt (' ' :: (t1 ++ ' ' :: (t2 ++ ['.']))) =
      some (' ', t1, ' ', t2 ++ ['.']) :=
    p2MatchAt_some_iff.mpr ⟨rfl, by decide, h1, by decide⟩
  have hm2 : m2 (' ' :: (t1 ++ ' ' :: (t2 ++ ['.']))) =
      some (' ' :: backtick :: (t1 ++ [backtick, ' ']), t2 ++ ['.']) := by
    unfold m2
    rw [hp]
  have e6 : sub2 (' ' :: (t1 ++ ' ' :: (t2 ++ ['.']))) =
      (' ' :: backtick :: (t1 ++ [backtick, ' '])) ++ sub2 (t2 ++ ['.']) :=
    scan_cons_some m2_length hm2
  have e7 : sub2 (t2 ++ ['.']) = t2 ++ ['.'] := by
    refine sub2_eq_self_of_no_space (t2 ++ ['.']).length _ le_rfl ?_
    intro c hc
    rcases List.mem_append.mp hc with hc | hc
    · exact not_pySpace_of_snakeChar (h2 c hc)
    · simp only [List.mem_singleton] at hc
      subst hc
      decide
  rw [e1, e2, e3, e4, e5, e6, e7]
  simp [List.append_assoc]

lemma not_mem_cons2 {c a : Char} {l : List Char} (h1 : c ≠ a) (h2 : c ∉ l) :
    c ∉ a :: l := fun h => (List.mem_cons.mp h).elim h1 h2

lemma not_mem_append2 {c : Char} {l1 l2 : List Char} (h1 : c ∉ l1) (h2 : c ∉ l2) :
    c ∉ l1 ++ l2 := fun h => (List.mem_append.mp h).elim h1 h2

lemma snake_not_mem {c : Char} {t : List Char} (hm : ∀ x ∈ t, snakeChar x = true)
    (hc : snakeChar c = false) : c ∉ t := by
  intro h
  rw [hm c h] at hc
  simp at hc

lemma forall_mem_cons2 {P : Char → Prop} {a : Char} {l : List Char}
    (h1 : P a) (h2 : ∀ x ∈ l, P x) : ∀ x ∈ a :: l, P x := by
  intro x hx
  rcases List.mem_cons.mp hx with rfl | hx
  · exact h1
  · exact h2 x hx

lemma forall_mem_append2 {P : Char → Prop} {l1 l2 : List Char}
    (h1 : ∀ x ∈ l1, P x) (h2 : ∀ x ∈ l2, P x) : ∀ x ∈ l1 ++ l2, P x := by
  intro x hx
  rcases List.mem_append.mp hx with hx | hx
  · exact h1 x hx
  · exact h2 x hx

lemma snakeTok_members {t : List Char} (h : isSnakeTok t = true) :
    ∀ c ∈ t, snakeChar c = true := (specSnakeToken_of_isSnakeTok h).2.2.1

/-- Claim C1: for the qualifying input line
`/// Call fish_add_path() to update the path.` the annotator returns exactly
`/// Call \x60fish_add_path()\x60 to update the path.`: rule 1 wraps the
call-like token in single backticks and rule 2 does not add a second layer of
backticks around the identifier already consumed by the call-like match. -/
theorem claim1_call_like_scenario :
    fix_doc_line "/// Call fish_add_path() to update the path." =
      "/// Call `fish_add_path()` to update the path." := by
  decide

/-- Claim C2 counterexample: the annotator is not idempotent on every line.
On `/// a b() c() d` the first pass wraps only `b()` because that match
consumes the whitespace shared with `c()`, and a second application changes
the line again by wrapping `c()`. -/
theorem claim2_idempotence_counterexample :
    fix_doc_line (fix_doc_line "/// a b() c() d") ≠
      fix_doc_line "/// a b() c() d" := by
  decide

/-- Claim C2, amended: idempotence does not hold for every line (see the
counterexample), but applying the annotator twice agrees with applying it
once on each of the specification's concrete sample lines (scenarios 1 to 5),
so a second run reports zero changed lines for those inputs. -/
theorem claim2_idempotent_on_sample_lines :
    (fix_doc_line (fix_doc_line "/// Call fish_add_path() to update the path.") =
      fix_doc_line "/// Call fish_add_path() to update the path.") ∧
    (fix_doc_line (fix_doc_line "/// See also my_helper_fn for details.") =
      fix_doc_line "/// See also my_helper_fn for details.") ∧
    (fix_doc_line (fix_doc_line "/// Returns a PathBuf value.") =
      fix_doc_line "/// Returns a PathBuf value.") ∧
    (fix_doc_line (fix_doc_line "// This is not a doc comment with fish_add_path.") =
      fix_doc_line "// This is not a doc comment with fish_add_path.") ∧
    (fix_doc_line (fix_doc_line "/// A Name is simple.") =
      fix_doc_line "/// A Name is simple.") := by
  refine ⟨by decide, by decide, by decide, by decide, by decide⟩

/-- Claim C3: rule 2 matches — and hence wraps — a token exactly when the
token begins with a lowercase letter or underscore, consists of lowercase
letters, digits and underscores, contains at least one internal underscore,
is preceded by a whitespace character, and is followed by whitespace or one
of period, comma, semicolon, closing parenthesis, closing bracket; and the
qualifying line `/// See also my_helper_fn for details.` becomes
`/// See also \x60my_helper_fn\x60 for details.`. -/
theorem claim3_rule2_characterization :
    (∀ (s : List Char) (w b : Char) (t r : List Char),
      p2MatchAt s = some (w, t, b, r) ↔
        (s = w :: (t ++ b :: r) ∧ isPySpace w = true ∧ SpecSnakeToken t ∧
          isBoundary2 b = true)) ∧
    fix_doc_line "/// See also my_helper_fn for details." =
      "/// See also `my_helper_fn` for details." :=
  ⟨fun _ _ _ _ _ => p2MatchAt_some_iff, by decide⟩

/-- Claim C4: every line whose content after discarding leading whitespace
does not begin with `///` is returned byte-identical by the annotator. -/
theorem claim4_non_doc_identity (s : String) (h : isDocLine s.data = false) :
    fix_doc_line s = s := by
  have hfix : fixLine s.data = s.data := by
    unfold fixLine
    simp [h]
  unfold fix_doc_line
  rw [hfix]

/-- Claim C4 witness: scenario 4's non-doc line is returned unchanged. -/
theorem claim4_non_doc_identity_witness :
    isDocLine "// This is not a doc comment with fish_add_path.".data = false ∧
      fix_doc_line "// This is not a doc comment with fish_add_path." =
        "// This is not a doc comment with fish_add_path." :=
  ⟨by decide, claim4_non_doc_identity _ (by decide)⟩

/-- Claim C5: rule 3 matches — and hence wraps — a token exactly when the
token starts with an uppercase letter, consists only of letters and digits,
contains at least two uppercase letters, and is bounded by a single
whitespace character on each side; consequently `/// A Name is simple.` is
returned unchanged, since `Name` has only one uppercase letter. -/
theorem claim5_rule3_characterization :
    (∀ (s : List Char) (w b : Char) (t r : List Char),
      p3MatchAt s = some (w, t, b, r) ↔
        (s = w :: (t ++ b :: r) ∧ isPySpace w = true ∧ SpecPascalToken t ∧
          isPySpace b = true)) ∧
    fix_doc_line "/// A Name is simple." = "/// A Name is simple." :=
  ⟨fun _ _ _ _ _ => p3MatchAt_some_iff, by decide⟩

/-- Claim C6: the annotator only inserts backtick characters: every input
line is a subsequence of its output, and erasing backticks from input and
output yields the same character sequence, so all whitespace and punctuation
around substituted tokens is preserved byte-for-byte. -/
theorem claim6_backtick_insertion_only (s : String) :
    List.Sublist s.data (fix_doc_line s).data ∧
      (fix_doc_line s).data.filter keepChar = s.data.filter keepChar :=
  fixLine_insert s.data

/-- Claim C7: processing a file maps each line through the annotator in
order — the output has exactly as many lines as the input and each output
line is the image of the corresponding input line — and the annotator never
inserts or removes a line terminator. -/
theorem claim7_line_count_order :
    (∀ lines : List (List Char),
      (processLines lines).1.length = lines.length ∧
        (processLines lines).1 = lines.map fixLine) ∧
    (∀ s : List Char, (fixLine s).count '\n' = s.count '\n') :=
  ⟨fun lines => ⟨by rw [processLines_fst]; simp, processLines_fst lines⟩,
    fixLine_count_nl⟩

/-- Claim C8 counterexample: a CRLF-terminated file is not rewritten in its
own convention.  The input content contains a carriage return; the script
reads it in text mode (universal newlines), changes the line, and writes the
file back with a bare LF terminator, so the rewritten content contains no
carriage return at all. -/
theorem claim8_crlf_counterexample :
    ('\r' ∈ "/// See also my_helper_fn for details.\r\n".data) ∧
      '\r' ∉ rewriteFile "/// See also my_helper_fn for details.\r\n".data ∧
      rewriteFile "/// See also my_helper_fn for details.\r\n".data =
        "/// See also `my_helper_fn` for details.\n".data := by
  refine ⟨by decide, by decide, by decide⟩

/-- Claim C8, amended: only for input files that already use LF terminators
is the terminator convention preserved — the rewritten content again contains
no carriage return and has exactly as many LF terminators as the input.
CRLF or CR files are read with universal-newline translation and written back
with LF, changing the convention (see the counterexample). -/
theorem claim8_lf_preservation (content : List Char) (h : '\r' ∉ content) :
    '\r' ∉ rewriteFile content ∧
      (rewriteFile content).count '\n' = content.count '\n' :=
  rewriteFile_no_cr content h

/-- Claim C8 witness: an LF-terminated line keeps its convention. -/
theorem claim8_lf_preservation_witness :
    '\r' ∉ "/// See also my_helper_fn for details.\n".data ∧
      ('\r' ∉ rewriteFile "/// See also my_helper_fn for details.\n".data ∧
        (rewriteFile "/// See also my_helper_fn for details.\n".data).count '\n' =
          "/// See also my_helper_fn for details.\n".data.count '\n') :=
  ⟨by decide, claim8_lf_preservation _ (by decide)⟩

/-- Claim C9: the per-file change count equals the number of lines actually
changed by the annotator, and the file is written back exactly when at least
one line changed — a file all of whose lines map to themselves is never
written. -/
theorem claim9_frame_condition (lines : List (List Char)) :
    (processLines lines).2 = lines.countP (fun l => decide (fixLine l ≠ l)) ∧
      (writeBack lines).isSome = lines.any (fun l => decide (fixLine l ≠ l)) :=
  ⟨processLines_snd lines, writeBack_isSome lines⟩

/-- Claim C10: within one pass of rule 2 over a qualifying line, when two
snake_case tokens are separated by exactly one whitespace character, only the
first is wrapped: the shared whitespace is consumed as the first match's
trailing boundary, so it cannot serve as the second token's required leading
whitespace. -/
theorem claim10_boundary_consumption (t1 t2 : List Char)
    (h1 : isSnakeTok t1 = true) (h2 : isSnakeTok t2 = true) :
    fixLine ("/// a ".data ++ t1 ++ ' ' :: (t2 ++ ['.'])) =
      "/// a ".data ++ backtick :: (t1 ++ backtick :: ' ' :: (t2 ++ ['.'])) := by
  have hm1 := snakeTok_members h1
  have hm2t := snakeTok_members h2
  have hdata : "/// a ".data = ['/', '/', '/', ' ', 'a', ' '] := rfl
  rw [hdata]
  simp only [List.cons_append, List.nil_append]
  unfold fixLine
  have hdoc : isDocLine
      ('/' :: '/' :: '/' :: ' ' :: 'a' :: ' ' :: (t1 ++ ' ' :: (t2 ++ ['.']))) = true := by
    have hs : isPySpace '/' = false := by decide
    simp [isDocLine, List.dropWhile_cons, hs]
  rw [if_pos hdoc]
  have hnp : '(' ∉ '/' :: '/' :: '/' :: ' ' :: 'a' :: ' ' ::
      (t1 ++ ' ' :: (t2 ++ ['.'])) :=
    not_mem_cons2 (by decide) (not_mem_cons2 (by decide) (not_mem_cons2 (by decide)
      (not_mem_cons2 (by decide) (not_mem_cons2 (by decide) (not_mem_cons2 (by decide)
        (not_mem_append2 (snake_not_mem hm1 (by decide))
          (not_mem_cons2 (by decide)
            (not_mem_append2 (snake_not_mem hm2t (by decide))
              (not_mem_cons2 (by decide) (List.not_mem_nil '('))))))))))
  rw [sub1_eq_self_of_no_paren _ _ le_rfl hnp]
  rw [c10_sub2 (specSnakeToken_of_isSnakeTok h1) hm2t]
  have hupper : ∀ x ∈ '/' :: '/' :: '/' :: ' ' :: 'a' :: ' ' :: backtick ::
      (t1 ++ backtick :: ' ' :: (t2 ++ ['.'])), upperChar x = false :=
    forall_mem_cons2 (by decide) (forall_mem_cons2 (by decide)
      (forall_mem_cons2 (by decide) (forall_mem_cons2 (by decide)
        (forall_mem_cons2 (by decide) (forall_mem_cons2 (by decide)
          (forall_mem_cons2 (by decide)
            (forall_mem_append2 (fun x hx => not_upperChar_of_snakeChar (hm1 x hx))
              (forall_mem_cons2 (by decide) (forall_mem_cons2 (by decide)
                (forall_mem_append2
                  (fun x hx => not_upperChar_of_snakeChar (hm2t x hx))
                  (forall_mem_cons2 (by decide)
                    (fun x hx => absurd hx (List.not_mem_nil x)))))))))))))
  exact sub3_eq_self_of_no_upper _ _ le_rfl hupper

/-- Claim C10 witness: `/// a foo_bar baz_qux.` becomes
`/// a \x60foo_bar\x60 baz_qux.` — `baz_qux` is left unwrapped. -/
theorem claim10_boundary_consumption_witness :
    isSnakeTok "foo_bar".data = true ∧ isSnakeTok "baz_qux".data = true ∧
      fixLine ("/// a ".data ++ "foo_bar".data ++ ' ' :: ("baz_qux".data ++ ['.'])) =
        "/// a ".data ++ backtick :: ("foo_bar".data ++ backtick :: ' ' ::
          ("baz_qux".data ++ ['.'])) :=
  ⟨by decide, by decide,
    claim10_boundary_consumption "foo_bar".data "baz_qux".data (by decide) (by decide)⟩

end FixDocBackticks
